import Mathlib

/-!
# Verification of the weekly planner's storage layer and attachment manager

This file gives a shallow embedding of `data_manager.py` from the weekly
planner application and proves the specified properties of its operations.

Modelling decisions:

* The SQLite `tasks` and `schedule` tables are modelled as lists of rows
  together with the next `AUTOINCREMENT` identity (SQLite row ids start
  at 1); `cursor.lastrowid` after an INSERT is the id just assigned.
* `self.conn is None` (a failed connection) is the Boolean field `conn`.
* Each operation takes an `err : Bool` argument modelling whether the
  underlying `sqlite3` call raises `sqlite3.Error` (the `except` branch of
  the Python code); `err = false` is normal operation.
* SQLite compares `TEXT` values with the BINARY collation, i.e. `memcmp`
  on the UTF-8 bytes.  For valid UTF-8, byte order coincides with
  code-point order, so we compare lists of `Char.toNat` code points
  lexicographically (`charsLt` / `charsLe`).  `date BETWEEN a AND b` is
  the inclusive `a <= date <= b` in this order.
* `ORDER BY date, time` produces some permutation of the filtered rows
  sorted by the key `(date, time)`; we realise it with
  `List.insertionSort`, a sorted permutation.
* The Python `dict` built with `setdefault(...).append(...)` is an
  insertion-ordered association list `List (String × List Task)`;
  `insertGrouped` is one loop iteration of `get_tasks_for_week`.
* The filesystem used by `upload_file` is an association list from path
  strings to file contents; `shutil.copy2` writes the source's content at
  the destination path.  `os.path.exists ""` is `False` in Python, so a
  path exists only if it is non-empty and present.
-/

namespace WeeklyPlanner

/-- Strict lexicographic comparison of code-point lists: SQLite's BINARY
collation (`memcmp`) on UTF-8 text. -/
def charsLt : List Char → List Char → Bool
  | _, [] => false
  | [], _ :: _ => true
  | a :: as, b :: bs =>
    if a.toNat < b.toNat then true
    else if b.toNat < a.toNat then false
    else charsLt as bs

/-- Reflexive lexicographic comparison of code-point lists. -/
def charsLe : List Char → List Char → Bool
  | [], _ => true
  | _ :: _, [] => false
  | a :: as, b :: bs =>
    if a.toNat < b.toNat then true
    else if b.toNat < a.toNat then false
    else charsLe as bs

/-- `a < b` for SQLite TEXT values. -/
def strLt (a b : String) : Bool := charsLt a.data b.data

/-- `a <= b` for SQLite TEXT values; `BETWEEN` is two such comparisons. -/
def strLe (a b : String) : Bool := charsLe a.data b.data

/-- A row of the `tasks` table. -/
structure Task where
  id : Nat
  date : String
  name : String
  description : String
  time : String
  location : String
  file_path : String
  is_completed : Bool
deriving DecidableEq

/-- A row of the `schedule` table (`entry_type` is the `type` column). -/
structure ScheduleEntry where
  id : Nat
  day_of_week : String
  start_time : String
  end_time : String
  entry_type : String
  description : String
deriving DecidableEq

/-- The state of a `DataManager`: connection flag, both tables with their
next `AUTOINCREMENT` identities, and the upload directory path. -/
structure DataManager where
  conn : Bool
  tasks : List Task
  nextTaskId : Nat
  schedule : List ScheduleEntry
  nextScheduleId : Nat
  upload_dir : String
deriving DecidableEq

/-- A freshly initialised `DataManager` whose connection succeeded:
empty tables, `AUTOINCREMENT` counters at 1, upload directory created. -/
def initDM : DataManager := ⟨true, [], 1, [], 1, "/app/src/uploads"⟩

/-- `DataManager.add_task`: inserts a row with `is_completed = 0` and
returns `cursor.lastrowid`, or `None` when the connection is absent or
the insert raises. -/
def add_task (dm : DataManager) (err : Bool)
    (date name description time location file_path : String) :
    DataManager × Option Nat :=
  if dm.conn = false then (dm, none)
  else if err then (dm, none)
  else
    ({ dm with
        tasks := dm.tasks ++
          [⟨dm.nextTaskId, date, name, description, time, location, file_path, false⟩],
        nextTaskId := dm.nextTaskId + 1 },
     some dm.nextTaskId)

/-- The `ORDER BY date, time` key order on task rows. -/
def taskLE (a b : Task) : Prop :=
  (strLt a.date b.date || (a.date == b.date && strLe a.time b.time)) = true

instance : DecidableRel taskLE := fun _ _ => inferInstanceAs (Decidable (_ = true))

/-- One iteration of the grouping loop of `get_tasks_for_week`:
`tasks_by_date.setdefault(task_data['date'], []).append(task_data)`. -/
def insertGrouped (acc : List (String × List Task)) (t : Task) :
    List (String × List Task) :=
  match acc with
  | [] => [(t.date, [t])]
  | (d, ts) :: rest =>
    if d = t.date then (d, ts ++ [t]) :: rest
    else (d, ts) :: insertGrouped rest t

/-- Lookup of a key in the insertion-ordered dictionary. -/
def findDate : List (String × List Task) → String → Option (List Task)
  | [], _ => none
  | (d, ts) :: rest, k => if d = k then some ts else findDate rest k

/-- `DataManager.get_tasks_for_week`: rows with
`date BETWEEN start AND end`, ordered by `(date, time)`, grouped into a
dictionary keyed by date; `{}` when the connection is absent or the
query raises. -/
def get_tasks_for_week (dm : DataManager) (err : Bool)
    (start_date_str end_date_str : String) : List (String × List Task) :=
  if dm.conn = false then []
  else if err then []
  else
    (List.insertionSort taskLE
      (dm.tasks.filter fun t =>
        strLe start_date_str t.date && strLe t.date end_date_str)).foldl
      insertGrouped []

/-- `DataManager.update_task_status`: `UPDATE tasks SET is_completed = ?
WHERE id = ?`. -/
def update_task_status (dm : DataManager) (err : Bool) (task_id : Nat)
    (is_completed : Bool) : DataManager :=
  if dm.conn = false then dm
  else if err then dm
  else { dm with tasks := dm.tasks.map fun t =>
          if t.id = task_id then { t with is_completed := is_completed } else t }

/-- `DataManager.update_task`: overwrites the five non-date fields of the
row with the given id. -/
def update_task (dm : DataManager) (err : Bool) (task_id : Nat)
    (name description time location file_path : String) : DataManager :=
  if dm.conn = false then dm
  else if err then dm
  else { dm with tasks := dm.tasks.map fun t =>
          if t.id = task_id then
            { t with name := name, description := description, time := time,
                     location := location, file_path := file_path }
          else t }

/-- `DataManager.delete_task`: `DELETE FROM tasks WHERE id = ?`. -/
def delete_task (dm : DataManager) (err : Bool) (task_id : Nat) : DataManager :=
  if dm.conn = false then dm
  else if err then dm
  else { dm with tasks := dm.tasks.filter fun t => t.id != task_id }

/-- `DataManager.add_schedule_entry`: inserts a schedule row and returns
its id, or `None` on failure. -/
def add_schedule_entry (dm : DataManager) (err : Bool)
    (day_of_week start_time end_time entry_type description : String) :
    DataManager × Option Nat :=
  if dm.conn = false then (dm, none)
  else if err then (dm, none)
  else
    ({ dm with
        schedule := dm.schedule ++
          [⟨dm.nextScheduleId, day_of_week, start_time, end_time, entry_type,
            description⟩],
        nextScheduleId := dm.nextScheduleId + 1 },
     some dm.nextScheduleId)

/-- The `ORDER BY start_time` key order on schedule rows. -/
def scheduleLE (a b : ScheduleEntry) : Prop :=
  strLe a.start_time b.start_time = true

instance : DecidableRel scheduleLE := fun _ _ =>
  inferInstanceAs (Decidable (_ = true))

/-- `DataManager.get_schedule_for_day`: rows with the given day of week,
ordered by `start_time`; `[]` on failure. -/
def get_schedule_for_day (dm : DataManager) (err : Bool)
    (day_of_week : String) : List ScheduleEntry :=
  if dm.conn = false then []
  else if err then []
  else
    List.insertionSort scheduleLE
      (dm.schedule.filter fun s => s.day_of_week == day_of_week)

/-- A filesystem: an association list from path strings to file contents
(first binding wins). -/
structure FS where
  files : List (String × String)
deriving DecidableEq

/-- First-match lookup of a path. -/
def lookupFile : List (String × String) → String → Option String
  | [], _ => none
  | (p, c) :: rest, q => if p = q then some c else lookupFile rest q

/-- `os.path.exists`: the empty string is never an existing path
(`os.path.exists("")` is `False` in Python). -/
def pexists (fs : FS) (p : String) : Bool :=
  (p != "") && (lookupFile fs.files p).isSome

/-- The content stored at a path (meaningful when `pexists`). -/
def readFile (fs : FS) (p : String) : String := (lookupFile fs.files p).getD ""

/-- Writing content at a path, as `shutil.copy2` does at the destination. -/
def setFile (fs : FS) (p c : String) : FS := ⟨(p, c) :: fs.files⟩

/-- `os.path.basename` on character lists: the suffix after the last
`'/'`. -/
def basenameChars (cs : List Char) : List Char :=
  (cs.reverse.takeWhile (fun c => c != '/')).reverse

/-- `os.path.basename` (POSIX). -/
def basename (p : String) : String := ⟨basenameChars p.data⟩

/-- `os.path.splitext` on the characters of a basename: split at the last
dot, unless every character before it is a dot (then the extension is
empty), exactly as `posixpath.splitext` does for a path without `'/'`. -/
def splitextChars (cs : List Char) : List Char × List Char :=
  match cs.reverse.dropWhile (fun c => c != '.') with
  | [] => (cs, [])
  | d :: before =>
    if before.all (fun c => c == '.') then (cs, [])
    else (before.reverse, d :: (cs.reverse.takeWhile (fun c => c != '.')).reverse)

/-- `os.path.splitext` (applied in the code to a basename). -/
def splitext (p : String) : String × String :=
  (⟨(splitextChars p.data).1⟩, ⟨(splitextChars p.data).2⟩)

/-- `DataManager.upload_file`.  `now` is
`datetime.now().strftime("%Y%m%d%H%M%S")`; `err` models `shutil.copy2`
raising; `task_id = some 0` is falsy in Python (`if task_id:`), hence
takes the timestamp branch. -/
def upload_file (dm : DataManager) (fs : FS) (now : String) (err : Bool)
    (source_path : String) (task_id : Option Nat) : FS × String :=
  if source_path == "" || !(pexists fs source_path) then (fs, "")
  else
    let filename := basename source_path
    let uniqueFilename :=
      match task_id with
      | some tid =>
        if tid ≠ 0 then
          (splitext filename).1 ++ "_" ++ Nat.repr tid ++ (splitext filename).2
        else
          (splitext filename).1 ++ "_" ++ now ++ (splitext filename).2
      | none =>
        (splitext filename).1 ++ "_" ++ now ++ (splitext filename).2
    let destination_path := dm.upload_dir ++ "/" ++ uniqueFilename
    if err then (fs, "")
    else (setFile fs destination_path (readFile fs source_path), destination_path)

/-- A Storage Layer call that can change the `tasks` table. -/
inductive StoreOp where
  | addTask (err : Bool) (date name description time location file_path : String)
  | updateTaskStatus (err : Bool) (task_id : Nat) (is_completed : Bool)
  | updateTask (err : Bool) (task_id : Nat)
      (name description time location file_path : String)
  | deleteTask (err : Bool) (task_id : Nat)

/-- Executing one Storage Layer call. -/
def applyOp (dm : DataManager) : StoreOp → DataManager
  | .addTask err d n de ti lo fp => (add_task dm err d n de ti lo fp).1
  | .updateTaskStatus err i b => update_task_status dm err i b
  | .updateTask err i n de ti lo fp => update_task dm err i n de ti lo fp
  | .deleteTask err i => delete_task dm err i

/-- Executing a sequence of Storage Layer calls. -/
def runOps (dm : DataManager) (ops : List StoreOp) : DataManager :=
  ops.foldl applyOp dm

/-- The call's `name` argument (if it has one) is non-empty. -/
def opNameOk : StoreOp → Bool
  | .addTask _ _ n _ _ _ _ => n != ""
  | .updateTask _ _ n _ _ _ _ => n != ""
  | _ => true

/-! ## Order properties of the BINARY collation -/

theorem char_toNat_inj {a b : Char} (h : a.toNat = b.toNat) : a = b :=
  Char.ext (UInt32.ext h)

theorem charsLt_trans : ∀ {a b c : List Char},
    charsLt a b = true → charsLt b c = true → charsLt a c = true := by
  intro a
  induction a with
  | nil =>
    intro b c h1 h2
    cases c with
    | nil =>
      cases b with
      | nil => simp [charsLt] at h1
      | cons y bs => simp [charsLt] at h2
    | cons z cs => rfl
  | cons x as ih =>
    intro b c h1 h2
    cases b with
    | nil => simp [charsLt] at h1
    | cons y bs =>
      cases c with
      | nil => simp [charsLt] at h2
      | cons z cs =>
        simp only [charsLt] at h1 h2 ⊢
        split_ifs at h1 h2 ⊢ <;>
          first
            | rfl
            | omega
            | exact ih h1 h2

theorem charsLe_trans : ∀ {a b c : List Char},
    charsLe a b = true → charsLe b c = true → charsLe a c = true := by
  intro a
  induction a with
  | nil => intro b c _ _; rfl
  | cons x as ih =>
    intro b c h1 h2
    cases b with
    | nil => simp [charsLe] at h1
    | cons y bs =>
      cases c with
      | nil => simp [charsLe] at h2
      | cons z cs =>
        simp only [charsLe] at h1 h2 ⊢
        split_ifs at h1 h2 ⊢ <;>
          first
            | rfl
            | omega
            | exact ih h1 h2

theorem charsLe_total : ∀ (a b : List Char),
    charsLe a b = true ∨ charsLe b a = true := by
  intro a
  induction a with
  | nil => intro b; left; rfl
  | cons x as ih =>
    intro b
    cases b with
    | nil => right; rfl
    | cons y bs =>
      simp only [charsLe]
      split_ifs <;> first | simp | exact ih bs

theorem charsLt_irrefl : ∀ (a : List Char), charsLt a a = false := by
  intro a
  induction a with
  | nil => rfl
  | cons x as ih => simp [charsLt, ih]

theorem chars_eq_of_not_lt : ∀ {a b : List Char},
    charsLt a b = false → charsLt b a = false → a = b := by
  intro a
  induction a with
  | nil =>
    intro b h1 _
    cases b with
    | nil => rfl
    | cons y bs => simp [charsLt] at h1
  | cons x as ih =>
    intro b h1 h2
    cases b with
    | nil => simp [charsLt] at h2
    | cons y bs =>
      simp only [charsLt] at h1 h2
      split_ifs at h1 h2
      simp_all
      exact ⟨char_toNat_inj (by omega), ih h1 h2⟩

theorem strLt_trans {a b c : String} (h1 : strLt a b = true)
    (h2 : strLt b c = true) : strLt a c = true := charsLt_trans h1 h2

theorem strLe_trans {a b c : String} (h1 : strLe a b = true)
    (h2 : strLe b c = true) : strLe a c = true := charsLe_trans h1 h2

theorem strLe_total (a b : String) : strLe a b = true ∨ strLe b a = true :=
  charsLe_total a.data b.data

theorem strLt_irrefl (a : String) : strLt a a = false := charsLt_irrefl a.data

theorem str_eq_of_not_lt {a b : String} (h1 : strLt a b = false)
    (h2 : strLt b a = false) : a = b :=
  String.ext (chars_eq_of_not_lt h1 h2)

instance : IsTrans Task taskLE := by
  constructor
  intro a b c h1 h2
  simp only [taskLE, Bool.or_eq_true, Bool.and_eq_true, beq_iff_eq] at h1 h2 ⊢
  rcases h1 with h1 | ⟨h1d, h1t⟩
  · rcases h2 with h2 | ⟨h2d, h2t⟩
    · exact Or.inl (strLt_trans h1 h2)
    · exact Or.inl (h2d ▸ h1)
  · rcases h2 with h2 | ⟨h2d, h2t⟩
    · exact Or.inl (h1d ▸ h2)
    · exact Or.inr ⟨h1d.trans h2d, strLe_trans h1t h2t⟩

instance : IsTotal Task taskLE := by
  constructor
  intro a b
  simp only [taskLE, Bool.or_eq_true, Bool.and_eq_true, beq_iff_eq]
  by_cases hab : strLt a.date b.date = true
  · exact Or.inl (Or.inl hab)
  · by_cases hba : strLt b.date a.date = true
    · exact Or.inr (Or.inl hba)
    · have hd : a.date = b.date :=
        str_eq_of_not_lt (Bool.not_eq_true _ ▸ hab) (Bool.not_eq_true _ ▸ hba)
      rcases strLe_total a.time b.time with h | h
      · exact Or.inl (Or.inr ⟨hd, h⟩)
      · exact Or.inr (Or.inr ⟨hd.symm, h⟩)

/-- In the `(date, time)` key order, two rows with equal dates are
ordered by time. -/
theorem taskLE_time {a b : Task} (h : taskLE a b) (hd : a.date = b.date) :
    strLe a.time b.time = true := by
  simp only [taskLE, Bool.or_eq_true, Bool.and_eq_true, beq_iff_eq] at h
  rcases h with h | ⟨_, h⟩
  · rw [hd] at h
    simp [strLt_irrefl] at h
  · exact h

/-! ## Characterising the grouping dictionary -/

/-- Appending rows to an optional group: the effect of one key's worth of
`setdefault(...).append(...)` calls. -/
def optAppend : Option (List Task) → List Task → Option (List Task)
  | some ts, l => some (ts ++ l)
  | none, [] => none
  | none, l => some l

theorem optAppend_nil (o : Option (List Task)) : optAppend o [] = o := by
  cases o <;> simp [optAppend]

theorem optAppend_assoc (o : Option (List Task)) (l1 l2 : List Task) :
    optAppend (optAppend o l1) l2 = optAppend o (l1 ++ l2) := by
  cases o <;> cases l1 <;> cases l2 <;> simp [optAppend]

theorem findDate_insertGrouped (acc : List (String × List Task)) (t : Task)
    (k : String) :
    findDate (insertGrouped acc t) k =
      if t.date = k then optAppend (findDate acc k) [t] else findDate acc k := by
  induction acc with
  | nil =>
    simp only [insertGrouped, findDate]
    by_cases h : t.date = k <;> simp [h, optAppend, findDate]
  | cons p rest ih =>
    obtain ⟨d, ts⟩ := p
    by_cases hdt : d = t.date
    · by_cases hk : t.date = k
      · simp [insertGrouped, findDate, hdt, hk, hdt.trans hk, optAppend]
      · have hdk : ¬ d = k := fun h => hk (hdt.symm.trans h)
        simp [insertGrouped, findDate, hdt, hk, hdk]
    · by_cases hdk : d = k
      · have hk : ¬ t.date = k := fun h => hdt (hdk.trans h.symm)
        have hkt : ¬ k = t.date := fun h => hk h.symm
        simp [insertGrouped, findDate, hdt, hdk, hk, hkt]
      · simp [insertGrouped, findDate, hdt, hdk, ih]

theorem findDate_foldl (rows : List Task) : ∀ (acc : List (String × List Task))
    (k : String),
    findDate (rows.foldl insertGrouped acc) k =
      optAppend (findDate acc k) (rows.filter fun x => x.date == k) := by
  induction rows with
  | nil => intro acc k; simp [optAppend_nil]
  | cons t rest ih =>
    intro acc k
    simp only [List.foldl_cons, List.filter_cons]
    rw [ih, findDate_insertGrouped]
    by_cases h : t.date = k
    · simp [h, optAppend_assoc]
    · simp [h]

theorem findDate_group_some {rows : List Task} {k : String} {ts : List Task}
    (h : findDate (rows.foldl insertGrouped []) k = some ts) :
    ts = rows.filter fun x => x.date == k := by
  rw [findDate_foldl] at h
  cases hf : rows.filter fun x => x.date == k with
  | nil => rw [hf] at h; simp [optAppend, findDate] at h
  | cons a l =>
    rw [hf] at h
    simp only [findDate, optAppend] at h
    exact (Option.some_inj.mp h).symm

theorem findDate_group_of_mem {rows : List Task} {t : Task} (h : t ∈ rows) :
    findDate (rows.foldl insertGrouped []) t.date =
      some (rows.filter fun x => x.date == t.date) := by
  rw [findDate_foldl]
  have hmem : t ∈ rows.filter fun x => x.date == t.date :=
    List.mem_filter.mpr ⟨h, by simp⟩
  cases hf : rows.filter fun x => x.date == t.date with
  | nil => rw [hf] at hmem; simp at hmem
  | cons a l => simp [findDate, optAppend]

/-- Rows grouped from a `(date, time)`-sorted list are time-sorted within
each key. -/
theorem group_sorted {rows : List Task} (hs : List.Pairwise taskLE rows)
    {k : String} {ts : List Task}
    (h : findDate (rows.foldl insertGrouped []) k = some ts) :
    List.Pairwise (fun a b => strLe a.time b.time = true) ts := by
  have hts := findDate_group_some h
  subst hts
  have h1 : List.Pairwise taskLE (rows.filter fun x => x.date == k) :=
    List.Pairwise.sublist (List.filter_sublist rows) hs
  refine List.Pairwise.imp_of_mem ?_ h1
  intro a b ha hb hab
  have hda : a.date = k := by simpa using (List.mem_filter.mp ha).2
  have hdb : b.date = k := by simpa using (List.mem_filter.mp hb).2
  exact taskLE_time hab (hda.trans hdb.symm)

/-! ## Claims -/

/-- The contract of `get_tasks_for_week` on a live connection: exact
membership (a task appears iff it is stored and its date is in the
inclusive range), grouping by date, and time-sortedness within each
date's list. -/
theorem get_tasks_for_week_spec (dm : DataManager) (s e : String)
    (hconn : dm.conn = true) :
    (∀ d ts, findDate (get_tasks_for_week dm false s e) d = some ts →
      ∀ t ∈ ts, t ∈ dm.tasks ∧ t.date = d ∧
        strLe s t.date = true ∧ strLe t.date e = true) ∧
    (∀ t ∈ dm.tasks, strLe s t.date = true → strLe t.date e = true →
      ∃ ts, findDate (get_tasks_for_week dm false s e) t.date = some ts ∧
        t ∈ ts) ∧
    (∀ d ts, findDate (get_tasks_for_week dm false s e) d = some ts →
      List.Pairwise (fun a b => strLe a.time b.time = true) ts) := by
  have hrows : get_tasks_for_week dm false s e =
      (List.insertionSort taskLE (dm.tasks.filter fun t =>
        strLe s t.date && strLe t.date e)).foldl insertGrouped [] := by
    simp [get_tasks_for_week, hconn]
  refine ⟨?_, ?_, ?_⟩
  · intro d ts h t ht
    rw [hrows] at h
    have hts := findDate_group_some h
    subst hts
    obtain ⟨hmem, hdate⟩ := List.mem_filter.mp ht
    have hmem2 : t ∈ dm.tasks.filter fun t => strLe s t.date && strLe t.date e :=
      (List.perm_insertionSort taskLE _).mem_iff.mp hmem
    obtain ⟨hmem3, hrange⟩ := List.mem_filter.mp hmem2
    rw [Bool.and_eq_true] at hrange
    exact ⟨hmem3, by simpa using hdate, hrange.1, hrange.2⟩
  · intro t ht hs he
    rw [hrows]
    have hmem : t ∈ dm.tasks.filter fun t => strLe s t.date && strLe t.date e :=
      List.mem_filter.mpr ⟨ht, by simp [hs, he]⟩
    have hmem2 : t ∈ List.insertionSort taskLE
        (dm.tasks.filter fun t => strLe s t.date && strLe t.date e) :=
      (List.perm_insertionSort taskLE _).mem_iff.mpr hmem
    exact ⟨_, findDate_group_of_mem hmem2, List.mem_filter.mpr ⟨hmem2, by simp⟩⟩
  · intro d ts h
    rw [hrows] at h
    exact group_sorted (List.sorted_insertionSort taskLE _) h

/-- C1: For every store state and every inclusive date range
`[startDate, endDate]`, `getTasksForWeek` returns a mapping containing
exactly the tasks whose date lies in the range (tasks outside never
appear), grouped by date, each date's list ordered by the time string
ascending under lexical ordering (empty times first, since the empty
string sorts before any populated value); and after inserting
(2024-06-10, Dentist, 09:30) and (2024-06-10, Standup, 08:00) into a
fresh store, querying ["2024-06-09","2024-06-15"] returns both under key
"2024-06-10" in order [Standup, Dentist]. -/
theorem getTasksForWeek_correct (dm : DataManager) (s e : String)
    (hconn : dm.conn = true) :
    (∀ d ts, findDate (get_tasks_for_week dm false s e) d = some ts →
      ∀ t ∈ ts, t ∈ dm.tasks ∧ t.date = d ∧
        strLe s t.date = true ∧ strLe t.date e = true) ∧
    (∀ t ∈ dm.tasks, strLe s t.date = true → strLe t.date e = true →
      ∃ ts, findDate (get_tasks_for_week dm false s e) t.date = some ts ∧
        t ∈ ts) ∧
    (∀ d ts, findDate (get_tasks_for_week dm false s e) d = some ts →
      List.Pairwise (fun a b => strLe a.time b.time = true) ts) ∧
    get_tasks_for_week
        (add_task (add_task initDM false "2024-06-10" "Dentist" "" "09:30" "" "").1
          false "2024-06-10" "Standup" "" "08:00" "" "").1
        false "2024-06-09" "2024-06-15" =
      [("2024-06-10",
        [⟨2, "2024-06-10", "Standup", "", "08:00", "", "", false⟩,
         ⟨1, "2024-06-10", "Dentist", "", "09:30", "", "", false⟩])] := by
  obtain ⟨h1, h2, h3⟩ := get_tasks_for_week_spec dm s e hconn
  exact ⟨h1, h2, h3, by decide⟩

/-- Witness for C1 at a concrete input. -/
theorem getTasksForWeek_correct_witness :
    initDM.conn = true ∧
    (∀ d ts,
      findDate (get_tasks_for_week initDM false "2024-06-09" "2024-06-15") d =
        some ts →
      ∀ t ∈ ts, t ∈ initDM.tasks ∧ t.date = d ∧
        strLe "2024-06-09" t.date = true ∧ strLe t.date "2024-06-15" = true) :=
  ⟨rfl, (getTasksForWeek_correct initDM "2024-06-09" "2024-06-15" rfl).1⟩

/-- C2: For every valid input with non-empty name, `addTask` on an
available store appends exactly one new row whose fields equal the
arguments with `is_completed = false` and returns the newly assigned
identity; on an underlying I/O error it returns `None` instead of
raising; and a subsequent `getTasksForWeek` over a range containing the
date returns the inserted task. -/
theorem addTask_correct (dm : DataManager)
    (date name description time location file_path s e : String)
    (hconn : dm.conn = true) (_hname : name ≠ "")
    (hs : strLe s date = true) (he : strLe date e = true) :
    add_task dm true date name description time location file_path = (dm, none) ∧
    (add_task dm false date name description time location file_path).2 =
      some dm.nextTaskId ∧
    (add_task dm false date name description time location file_path).1.tasks =
      dm.tasks ++
        [⟨dm.nextTaskId, date, name, description, time, location, file_path,
          false⟩] ∧
    ∃ ts,
      findDate
          (get_tasks_for_week
            (add_task dm false date name description time location file_path).1
            false s e) date = some ts ∧
      (⟨dm.nextTaskId, date, name, description, time, location, file_path,
        false⟩ : Task) ∈ ts := by
  have hdm' : (add_task dm false date name description time location file_path).1 =
      { dm with
          tasks := dm.tasks ++
            [⟨dm.nextTaskId, date, name, description, time, location, file_path,
              false⟩],
          nextTaskId := dm.nextTaskId + 1 } := by
    simp [add_task, hconn]
  refine ⟨by simp [add_task, hconn], by simp [add_task, hconn], by rw [hdm'], ?_⟩
  have hconn' :
      (add_task dm false date name description time location file_path).1.conn =
        true := by
    rw [hdm']; exact hconn
  have hmem :
      (⟨dm.nextTaskId, date, name, description, time, location, file_path,
        false⟩ : Task) ∈
        (add_task dm false date name description time location file_path).1.tasks := by
    rw [hdm']; simp
  exact (get_tasks_for_week_spec _ s e hconn').2.1 _ hmem hs he

/-- Witness for C2 at a concrete input. -/
theorem addTask_correct_witness :
    (initDM.conn = true ∧ ("Dentist" : String) ≠ "" ∧
      strLe "2024-06-09" "2024-06-10" = true ∧
      strLe "2024-06-10" "2024-06-15" = true) ∧
    ∃ ts,
      findDate
          (get_tasks_for_week
            (add_task initDM false "2024-06-10" "Dentist" "" "09:30" "" "").1
            false "2024-06-09" "2024-06-15") "2024-06-10" = some ts ∧
      (⟨1, "2024-06-10", "Dentist", "", "09:30", "", "", false⟩ : Task) ∈ ts :=
  ⟨⟨rfl, by decide, by decide, by decide⟩,
    (addTask_correct initDM "2024-06-10" "Dentist" "" "09:30" "" ""
      "2024-06-09" "2024-06-15" rfl (by decide) (by decide) (by decide)).2.2.2⟩

/-- C5: `updateTaskStatus(id, completed)` changes only the `is_completed`
field of the row with that id, leaves every other field and all other
rows unchanged, and is a silent no-op (identical table) for an id not
present. -/
theorem updateTaskStatus_frame (dm : DataManager) (task_id : Nat) (b : Bool)
    (hconn : dm.conn = true) :
    (update_task_status dm false task_id b).tasks.length = dm.tasks.length ∧
    (∀ (i : Nat) (t : Task), dm.tasks[i]? = some t → t.id = task_id →
      (update_task_status dm false task_id b).tasks[i]? =
        some ⟨t.id, t.date, t.name, t.description, t.time, t.location,
          t.file_path, b⟩) ∧
    (∀ (i : Nat) (t : Task), dm.tasks[i]? = some t → t.id ≠ task_id →
      (update_task_status dm false task_id b).tasks[i]? = some t) ∧
    ((∀ t ∈ dm.tasks, t.id ≠ task_id) →
      update_task_status dm false task_id b = dm) := by
  have hup : (update_task_status dm false task_id b).tasks =
      dm.tasks.map fun t =>
        if t.id = task_id then { t with is_completed := b } else t := by
    simp [update_task_status, hconn]
  refine ⟨by rw [hup]; simp, ?_, ?_, ?_⟩
  · intro i t hi hid
    rw [hup, List.getElem?_map, hi]
    simp [hid]
  · intro i t hi hid
    rw [hup, List.getElem?_map, hi]
    simp [hid]
  · intro hall
    have hmap : (dm.tasks.map fun t =>
        if t.id = task_id then { t with is_completed := b } else t) = dm.tasks :=
      (List.map_congr_left fun a ha => if_neg (hall a ha)).trans dm.tasks.map_id
    have hupdm : update_task_status dm false task_id b =
        { dm with tasks := dm.tasks.map fun t =>
            if t.id = task_id then { t with is_completed := b } else t } := by
      simp [update_task_status, hconn]
    rw [hupdm, hmap]

/-- Witness for C5 at a concrete input. -/
theorem updateTaskStatus_frame_witness :
    initDM.conn = true ∧
    ((∀ t ∈ initDM.tasks, t.id ≠ 7) →
      update_task_status initDM false 7 true = initDM) :=
  ⟨rfl, (updateTaskStatus_frame initDM 7 true rfl).2.2.2⟩

/-- C6: `updateTask` overwrites name, description, time, location and
file path of the row with the given id while its date and completion
flag stay unchanged, leaves all other rows unchanged, and is a silent
no-op for an id not present. -/
theorem updateTask_frame (dm : DataManager) (task_id : Nat)
    (name description time location file_path : String)
    (hconn : dm.conn = true) :
    (update_task dm false task_id name description time location
        file_path).tasks.length = dm.tasks.length ∧
    (∀ (i : Nat) (t : Task), dm.tasks[i]? = some t → t.id = task_id →
      (update_task dm false task_id name description time location
          file_path).tasks[i]? =
        some ⟨t.id, t.date, name, description, time, location, file_path,
          t.is_completed⟩) ∧
    (∀ (i : Nat) (t : Task), dm.tasks[i]? = some t → t.id ≠ task_id →
      (update_task dm false task_id name description time location
          file_path).tasks[i]? = some t) ∧
    ((∀ t ∈ dm.tasks, t.id ≠ task_id) →
      update_task dm false task_id name description time location file_path =
        dm) := by
  have hup : (update_task dm false task_id name description time location
      file_path).tasks =
      dm.tasks.map fun t =>
        if t.id = task_id then
          { t with name := name, description := description, time := time,
                   location := location, file_path := file_path }
        else t := by
    simp [update_task, hconn]
  refine ⟨by rw [hup]; simp, ?_, ?_, ?_⟩
  · intro i t hi hid
    rw [hup, List.getElem?_map, hi]
    simp [hid]
  · intro i t hi hid
    rw [hup, List.getElem?_map, hi]
    simp [hid]
  · intro hall
    have hmap : (dm.tasks.map fun t =>
        if t.id = task_id then
          { t with name := name, description := description, time := time,
                   location := location, file_path := file_path }
        else t) = dm.tasks :=
      (List.map_congr_left fun a ha => if_neg (hall a ha)).trans dm.tasks.map_id
    have hupdm : update_task dm false task_id name description time location
        file_path =
        { dm with tasks := dm.tasks.map fun t =>
            if t.id = task_id then
              { t with name := name, description := description, time := time,
                       location := location, file_path := file_path }
            else t } := by
      simp [update_task, hconn]
    rw [hupdm, hmap]

/-- Witness for C6 at a concrete input. -/
theorem updateTask_frame_witness :
    initDM.conn = true ∧
    ((∀ t ∈ initDM.tasks, t.id ≠ 7) →
      update_task initDM false 7 "n" "d" "t" "l" "f" = initDM) :=
  ⟨rfl, (updateTask_frame initDM 7 "n" "d" "t" "l" "f" rfl).2.2.2⟩

/-- C7: after `deleteTask(id)` no `getTasksForWeek` query over any range
returns a task with that id; deleting an id not present is a no-op that
raises no error and leaves the store unchanged. -/
theorem deleteTask_correct (dm : DataManager) (task_id : Nat)
    (hconn : dm.conn = true) :
    (∀ s e d ts,
      findDate (get_tasks_for_week (delete_task dm false task_id) false s e) d =
        some ts →
      ∀ t ∈ ts, t.id ≠ task_id) ∧
    ((∀ t ∈ dm.tasks, t.id ≠ task_id) → delete_task dm false task_id = dm) := by
  have hdel : (delete_task dm false task_id).tasks =
      dm.tasks.filter fun t => t.id != task_id := by
    simp [delete_task, hconn]
  have hconn' : (delete_task dm false task_id).conn = true := by
    simp [delete_task, hconn]
  constructor
  · intro s e d ts h t ht
    have hmem : t ∈ (delete_task dm false task_id).tasks :=
      ((get_tasks_for_week_spec _ s e hconn').1 d ts h t ht).1
    rw [hdel] at hmem
    simpa using (List.mem_filter.mp hmem).2
  · intro hall
    have hfil : (dm.tasks.filter fun t => t.id != task_id) = dm.tasks :=
      List.filter_eq_self.mpr fun a ha => by simpa using hall a ha
    have hdeldm : delete_task dm false task_id =
        { dm with tasks := dm.tasks.filter fun t => t.id != task_id } := by
      simp [delete_task, hconn]
    rw [hdeldm, hfil]

/-- Witness for C7 at a concrete input. -/
theorem deleteTask_correct_witness :
    initDM.conn = true ∧
    ((∀ t ∈ initDM.tasks, t.id ≠ 7) → delete_task initDM false 7 = initDM) :=
  ⟨rfl, (deleteTask_correct initDM 7 rfl).2⟩

/-- C8: when the database connection is unavailable, every Storage Layer
operation is a no-op returning its failure sentinel: `addTask` and
`addScheduleEntry` return `None`, `getTasksForWeek` returns the empty
mapping, `getScheduleForDay` returns the empty list, and
`updateTaskStatus`, `updateTask` and `deleteTask` leave the state
unchanged — whether or not the underlying call would raise. -/
theorem conn_unavailable_noops (dm : DataManager) (hconn : dm.conn = false) :
    (∀ err date name description time location file_path,
      add_task dm err date name description time location file_path =
        (dm, none)) ∧
    (∀ err s e, get_tasks_for_week dm err s e = []) ∧
    (∀ err i b, update_task_status dm err i b = dm) ∧
    (∀ err i name description time location file_path,
      update_task dm err i name description time location file_path = dm) ∧
    (∀ err i, delete_task dm err i = dm) ∧
    (∀ err day st et ty de,
      add_schedule_entry dm err day st et ty de = (dm, none)) ∧
    (∀ err day, get_schedule_for_day dm err day = []) := by
  refine ⟨?_, ?_, ?_, ?_, ?_, ?_, ?_⟩ <;> intros <;>
    simp [add_task, get_tasks_for_week, update_task_status, update_task,
      delete_task, add_schedule_entry, get_schedule_for_day, hconn]

/-- Witness for C8 at a concrete input. -/
theorem conn_unavailable_noops_witness :
    ({ initDM with conn := false } : DataManager).conn = false ∧
    (∀ err s e,
      get_tasks_for_week { initDM with conn := false } err s e = []) :=
  ⟨rfl, (conn_unavailable_noops { initDM with conn := false } rfl).2.1⟩

/-- C3 counterexample: the Storage Layer itself never validates `name`.
Calling `addTask` with the empty string on a fresh store persists a task
whose name is empty (the `name TEXT NOT NULL` column constraint rejects
`NULL`, not `""`; the non-empty check lives in the GUI layer). -/
theorem storage_emptyName_counterexample :
    ∃ t ∈ (add_task initDM false "2024-01-01" "" "" "" "" "").1.tasks,
      t.name = "" := by decide

/-- One Storage Layer call whose `name` argument (if any) is non-empty
preserves "every persisted name is non-empty". -/
theorem applyOp_name_nonempty (dm : DataManager) (op : StoreOp)
    (h0 : ∀ t ∈ dm.tasks, t.name ≠ "") (hop : opNameOk op = true) :
    ∀ t ∈ (applyOp dm op).tasks, t.name ≠ "" := by
  intro t ht
  cases op with
  | addTask err d n de ti lo fp =>
    have hn : n ≠ "" := by simpa [opNameOk] using hop
    simp only [applyOp, add_task] at ht
    split_ifs at ht
    · exact h0 t ht
    · exact h0 t ht
    · simp only at ht
      rcases List.mem_append.mp ht with h | h
      · exact h0 t h
      · simp only [List.mem_singleton] at h
        subst h
        exact hn
  | updateTaskStatus err i b =>
    simp only [applyOp, update_task_status] at ht
    split_ifs at ht
    · exact h0 t ht
    · exact h0 t ht
    · simp only at ht
      obtain ⟨u, hu, hut⟩ := List.mem_map.mp ht
      by_cases hui : u.id = i
      · rw [if_pos hui] at hut
        subst hut
        exact h0 u hu
      · rw [if_neg hui] at hut
        subst hut
        exact h0 u hu
  | updateTask err i n de ti lo fp =>
    have hn : n ≠ "" := by simpa [opNameOk] using hop
    simp only [applyOp, update_task] at ht
    split_ifs at ht
    · exact h0 t ht
    · exact h0 t ht
    · simp only at ht
      obtain ⟨u, hu, hut⟩ := List.mem_map.mp ht
      by_cases hui : u.id = i
      · rw [if_pos hui] at hut
        subst hut
        exact hn
      · rw [if_neg hui] at hut
        subst hut
        exact h0 u hu
  | deleteTask err i =>
    simp only [applyOp, delete_task] at ht
    split_ifs at ht
    · exact h0 t ht
    · exact h0 t ht
    · simp only at ht
      exact h0 t (List.mem_filter.mp ht).1

/-- C3 amended: the Storage Layer does not itself enforce non-empty
names (see the counterexample); but starting from a store whose tasks
all have non-empty names, any sequence of Storage Layer operations whose
`name` arguments are all non-empty — as the GUI guarantees by validating
before calling — leaves every persisted task with a non-empty name. -/
theorem name_nonempty_invariant (dm : DataManager) (ops : List StoreOp)
    (h0 : ∀ t ∈ dm.tasks, t.name ≠ "")
    (hops : ∀ op ∈ ops, opNameOk op = true) :
    ∀ t ∈ (runOps dm ops).tasks, t.name ≠ "" := by
  induction ops generalizing dm with
  | nil => simpa [runOps] using h0
  | cons op rest ih =>
    simp only [runOps, List.foldl_cons]
    exact ih (applyOp dm op)
      (applyOp_name_nonempty dm op h0 (hops op (List.mem_cons_self op rest)))
      fun o ho => hops o (List.mem_cons_of_mem op ho)

/-- Witness for C3's amended invariant at a concrete input. -/
theorem name_nonempty_invariant_witness :
    ((∀ t ∈ initDM.tasks, t.name ≠ "") ∧
      (∀ op ∈ [StoreOp.addTask false "2024-01-01" "Dentist" "" "" "" "",
               StoreOp.updateTask false 1 "Checkup" "" "" "" "",
               StoreOp.deleteTask false 2], opNameOk op = true)) ∧
    ∀ t ∈ (runOps initDM
        [StoreOp.addTask false "2024-01-01" "Dentist" "" "" "" "",
         StoreOp.updateTask false 1 "Checkup" "" "" "" "",
         StoreOp.deleteTask false 2]).tasks, t.name ≠ "" :=
  ⟨⟨by decide, by decide⟩,
    name_nonempty_invariant initDM
      [StoreOp.addTask false "2024-01-01" "Dentist" "" "" "" "",
       StoreOp.updateTask false 1 "Checkup" "" "" "" "",
       StoreOp.deleteTask false 2] (by decide) (by decide)⟩

/-! ## Path lemmas for the attachment manager -/

theorem splitext_fst_data (x : String) :
    (splitext x).1.data = (splitextChars x.data).1 := rfl

theorem splitext_snd_data (x : String) :
    (splitext x).2.data = (splitextChars x.data).2 := rfl

theorem basename_data (x : String) : (basename x).data = basenameChars x.data :=
  rfl

theorem takeWhile_append_cons {p : Char → Bool} (a : Char) (r : List Char)
    (ha : p a = false) :
    ∀ (l : List Char), (∀ x ∈ l, p x = true) →
      (l ++ a :: r).takeWhile p = l := by
  intro l
  induction l with
  | nil => intro _; simp [List.takeWhile_cons, ha]
  | cons x xs ih =>
    intro hl
    have hx : p x = true := hl x (by simp)
    simp only [List.cons_append, List.takeWhile_cons, hx, if_true]
    rw [ih fun y hy => hl y (by simp [hy])]

theorem basenameChars_no_slash (cs : List Char) :
    ∀ c ∈ basenameChars cs, (c != '/') = true := by
  intro c hc
  simp only [basenameChars, List.mem_reverse] at hc
  have h2 := List.mem_takeWhile_imp hc
  simpa using h2

theorem basenameChars_append (xs u : List Char)
    (hu : ∀ c ∈ u, (c != '/') = true) :
    basenameChars (xs ++ '/' :: u) = u := by
  unfold basenameChars
  have hrev : (xs ++ '/' :: u).reverse = u.reverse ++ '/' :: xs.reverse := by
    simp [List.reverse_append]
  rw [hrev, takeWhile_append_cons '/' xs.reverse (by decide) u.reverse
    (fun y hy => hu y (List.mem_reverse.mp hy)), List.reverse_reverse]

theorem splitextChars_of_nil {cs : List Char}
    (h : cs.reverse.dropWhile (fun c => c != '.') = []) :
    splitextChars cs = (cs, []) := by
  unfold splitextChars
  rw [h]

theorem splitextChars_of_cons {cs : List Char} {d : Char} {before : List Char}
    (h : cs.reverse.dropWhile (fun c => c != '.') = d :: before) :
    splitextChars cs =
      if before.all (fun c => c == '.') then (cs, [])
      else (before.reverse,
        d :: (cs.reverse.takeWhile (fun c => c != '.')).reverse) := by
  unfold splitextChars
  rw [h]

theorem splitextChars_append (cs : List Char) :
    (splitextChars cs).1 ++ (splitextChars cs).2 = cs := by
  cases h : cs.reverse.dropWhile (fun c => c != '.') with
  | nil => rw [splitextChars_of_nil h]; simp
  | cons d before =>
    rw [splitextChars_of_cons h]
    by_cases hall : before.all (fun c => c == '.')
    · simp [hall]
    · simp only [hall, Bool.false_eq_true, if_false]
      have hsplit : cs.reverse.takeWhile (fun c => c != '.') ++ (d :: before) =
          cs.reverse := by
        rw [← h]; exact List.takeWhile_append_dropWhile _ _
      have hcs := congrArg List.reverse hsplit
      simp only [List.reverse_append, List.reverse_cons, List.reverse_reverse]
        at hcs
      simpa [List.append_assoc] using hcs

theorem digitChar_ne_slash (n : Nat) : (Nat.digitChar n != '/') = true := by
  rcases Nat.lt_or_ge n 16 with h | h
  · interval_cases n <;> decide
  · have h0 : ¬ n = 0 := by omega
    have h1 : ¬ n = 1 := by omega
    have h2 : ¬ n = 2 := by omega
    have h3 : ¬ n = 3 := by omega
    have h4 : ¬ n = 4 := by omega
    have h5 : ¬ n = 5 := by omega
    have h6 : ¬ n = 6 := by omega
    have h7 : ¬ n = 7 := by omega
    have h8 : ¬ n = 8 := by omega
    have h9 : ¬ n = 9 := by omega
    have h10 : ¬ n = 10 := by omega
    have h11 : ¬ n = 11 := by omega
    have h12 : ¬ n = 12 := by omega
    have h13 : ¬ n = 13 := by omega
    have h14 : ¬ n = 14 := by omega
    have h15 : ¬ n = 15 := by omega
    unfold Nat.digitChar
    rw [if_neg h0, if_neg h1, if_neg h2, if_neg h3, if_neg h4, if_neg h5,
      if_neg h6, if_neg h7, if_neg h8, if_neg h9, if_neg h10, if_neg h11,
      if_neg h12, if_neg h13, if_neg h14, if_neg h15]
    decide

theorem toDigitsCore_ne_slash (b : Nat) :
    ∀ (fuel n : Nat) (acc : List Char),
    (∀ c ∈ acc, (c != '/') = true) →
    ∀ c ∈ Nat.toDigitsCore b fuel n acc, (c != '/') = true := by
  intro fuel
  induction fuel with
  | zero =>
    intro n acc hacc c hc
    rw [Nat.toDigitsCore] at hc
    exact hacc c hc
  | succ fuel ih =>
    intro n acc hacc c hc
    rw [Nat.toDigitsCore] at hc
    by_cases hb : n / b = 0
    · rw [if_pos hb] at hc
      rcases List.mem_cons.mp hc with h | h
      · subst h; exact digitChar_ne_slash _
      · exact hacc c h
    · rw [if_neg hb] at hc
      refine ih (n / b) (Nat.digitChar (n % b) :: acc) ?_ c hc
      intro x hx
      rcases List.mem_cons.mp hx with h | h
      · subst h; exact digitChar_ne_slash _
      · exact hacc x h

theorem repr_ne_slash (n : Nat) : ∀ c ∈ (Nat.repr n).data, (c != '/') = true := by
  intro c hc
  have hd : (Nat.repr n).data = Nat.toDigitsCore 10 (n + 1) n [] := rfl
  rw [hd] at hc
  exact toDigitsCore_ne_slash 10 (n + 1) n [] (by simp) c hc

/-- The string `upload_file` puts between the base name and the
extension: the task id's decimal representation when the id is truthy,
the timestamp otherwise. -/
def midOf : String → Option Nat → String
  | now, some t => if t ≠ 0 then Nat.repr t else now
  | now, none => now

/-- The filename `upload_file` picks inside the managed directory. -/
def uniqueFilenameOf : String → String → Option Nat → String
  | now, sp, some t =>
    if t ≠ 0 then
      (splitext (basename sp)).1 ++ "_" ++ Nat.repr t ++ (splitext (basename sp)).2
    else
      (splitext (basename sp)).1 ++ "_" ++ now ++ (splitext (basename sp)).2
  | now, sp, none =>
    (splitext (basename sp)).1 ++ "_" ++ now ++ (splitext (basename sp)).2

/-- The destination path `upload_file` returns on success. -/
def destPath (dm : DataManager) (now sp : String) (tid : Option Nat) : String :=
  dm.upload_dir ++ "/" ++ uniqueFilenameOf now sp tid

theorem uniqueFilename_data (now sp : String) (tid : Option Nat) :
    (uniqueFilenameOf now sp tid).data =
      (splitextChars (basenameChars sp.data)).1 ++ '_' ::
        ((midOf now tid).data ++ (splitextChars (basenameChars sp.data)).2) := by
  rcases tid with _ | t
  · simp [uniqueFilenameOf, midOf, String.data_append, splitext_fst_data,
      splitext_snd_data, basename_data]
  · by_cases h0 : t ≠ 0 <;>
      simp [uniqueFilenameOf, midOf, h0, String.data_append, splitext_fst_data,
        splitext_snd_data, basename_data]

theorem midOf_no_slash (now : String) (tid : Option Nat)
    (hnow : ('/' : Char) ∉ now.data) :
    ∀ c ∈ (midOf now tid).data, (c != '/') = true := by
  have hnow' : ∀ c ∈ now.data, (c != '/') = true := by
    intro c hc
    rw [bne_iff_ne]
    rintro rfl
    exact hnow hc
  rcases tid with _ | t
  · exact hnow'
  · by_cases h0 : t ≠ 0
    · simpa [midOf, h0] using repr_ne_slash t
    · simpa [midOf, h0] using hnow'

theorem uniqueFilename_no_slash (now sp : String) (tid : Option Nat)
    (hnow : ('/' : Char) ∉ now.data) :
    ∀ c ∈ (uniqueFilenameOf now sp tid).data, (c != '/') = true := by
  intro c hc
  rw [uniqueFilename_data] at hc
  have hbn : ∀ x, x ∈ (splitextChars (basenameChars sp.data)).1 ∨
      x ∈ (splitextChars (basenameChars sp.data)).2 → (x != '/') = true := by
    intro x hx
    refine basenameChars_no_slash sp.data x ?_
    rw [← splitextChars_append (basenameChars sp.data)]
    exact List.mem_append.mpr hx
  simp only [List.mem_append, List.mem_cons] at hc
  rcases hc with h | h | h
  · exact hbn c (Or.inl h)
  · subst h; decide
  · rcases h with h | h
    · exact midOf_no_slash now tid hnow c h
    · exact hbn c (Or.inr h)

theorem uniqueFilename_len (now sp : String) (tid : Option Nat) :
    (basename sp).data.length < (uniqueFilenameOf now sp tid).data.length := by
  have hjoin : (splitextChars (basenameChars sp.data)).1.length +
      (splitextChars (basenameChars sp.data)).2.length =
      (basenameChars sp.data).length := by
    have h := congrArg List.length (splitextChars_append (basenameChars sp.data))
    simpa [List.length_append] using h
  rw [uniqueFilename_data, basename_data]
  simp only [List.length_append, List.length_cons]
  omega

theorem destPath_ne_source (dm : DataManager) (now sp : String)
    (tid : Option Nat) (hnow : ('/' : Char) ∉ now.data) :
    destPath dm now sp tid ≠ sp := by
  intro heq
  have hdata : (destPath dm now sp tid).data =
      dm.upload_dir.data ++ '/' :: (uniqueFilenameOf now sp tid).data := by
    simp [destPath, String.data_append]
  have hbn : basenameChars (destPath dm now sp tid).data =
      (uniqueFilenameOf now sp tid).data := by
    rw [hdata]
    exact basenameChars_append _ _ (uniqueFilename_no_slash now sp tid hnow)
  rw [heq] at hbn
  have hlen := uniqueFilename_len now sp tid
  rw [basename_data] at hlen
  rw [hbn] at hlen
  omega

theorem upload_file_success (dm : DataManager) (fs : FS) (now sp : String)
    (tid : Option Nat) (hex : pexists fs sp = true) :
    upload_file dm fs now false sp tid =
      (setFile fs (destPath dm now sp tid) (readFile fs sp),
       destPath dm now sp tid) := by
  have hne : (sp == "") = false := by
    have h := hex
    simp only [pexists, Bool.and_eq_true, bne_iff_ne] at h
    exact beq_eq_false_iff_ne.mpr h.1
  rcases tid with _ | t <;>
    simp [upload_file, hex, hne, destPath, uniqueFilenameOf]

/-- A concrete filesystem holding one source file. -/
def fsEx : FS := ⟨[("/tmp/photo.png", "PNGDATA")]⟩

/-- C4 counterexample: with a supplied task id of 0 the claimed
`{base}_{taskId}{ext}` naming does not happen — `if task_id:` is false
for 0 in Python, so the timestamp branch is taken instead. -/
theorem uploadFile_taskIdZero_counterexample :
    (upload_file initDM fsEx "20240610101112" false "/tmp/photo.png"
        (some 0)).2 =
      initDM.upload_dir ++ "/photo_20240610101112.png" ∧
    (upload_file initDM fsEx "20240610101112" false "/tmp/photo.png"
        (some 0)).2 ≠
      initDM.upload_dir ++ "/photo_0.png" := by decide

/-- C4 amended: `upload_file` returns the empty string and changes
nothing when the source does not exist; otherwise it computes the
destination filename as `{base}_{taskId}{ext}` when a *non-zero* task id
is supplied (store-assigned ids are ≥ 1; a supplied id of 0 is falsy in
Python and falls to the timestamp branch — see the counterexample) and
`{base}_{timestamp}{ext}` when none is, copies the file into the
managed directory and returns the destination path, or the empty string
on any copy failure; in particular storing `/tmp/photo.png` with task
id 42 yields `photo_42.png` inside the managed directory. -/
theorem uploadFile_correct (dm : DataManager) (fs : FS)
    (now source_path : String) (task_id : Option Nat) :
    (pexists fs source_path = false →
      ∀ err, upload_file dm fs now err source_path task_id = (fs, "")) ∧
    (pexists fs source_path = true →
      upload_file dm fs now true source_path task_id = (fs, "")) ∧
    (pexists fs source_path = true → ∀ n, task_id = some n → n ≠ 0 →
      upload_file dm fs now false source_path task_id =
        (setFile fs
          (dm.upload_dir ++ "/" ++ ((splitext (basename source_path)).1 ++ "_" ++
            Nat.repr n ++ (splitext (basename source_path)).2))
          (readFile fs source_path),
         dm.upload_dir ++ "/" ++ ((splitext (basename source_path)).1 ++ "_" ++
            Nat.repr n ++ (splitext (basename source_path)).2))) ∧
    (pexists fs source_path = true → task_id = none →
      upload_file dm fs now false source_path task_id =
        (setFile fs
          (dm.upload_dir ++ "/" ++ ((splitext (basename source_path)).1 ++ "_" ++
            now ++ (splitext (basename source_path)).2))
          (readFile fs source_path),
         dm.upload_dir ++ "/" ++ ((splitext (basename source_path)).1 ++ "_" ++
            now ++ (splitext (basename source_path)).2))) ∧
    (upload_file initDM fsEx now false "/tmp/photo.png" (some 42)).2 =
      initDM.upload_dir ++ "/photo_42.png" := by
  refine ⟨?_, ?_, ?_, ?_, ?_⟩
  · intro hex err
    simp [upload_file, hex]
  · intro hex
    have hne : (source_path == "") = false := by
      have h := hex
      simp only [pexists, Bool.and_eq_true, bne_iff_ne] at h
      exact beq_eq_false_iff_ne.mpr h.1
    rcases task_id with _ | t <;> simp [upload_file, hex, hne]
  · intro hex n hn h0
    subst hn
    rw [upload_file_success dm fs now source_path (some n) hex]
    simp [destPath, uniqueFilenameOf, h0]
  · intro hex hn
    subst hn
    rw [upload_file_success dm fs now source_path none hex]
    simp [destPath, uniqueFilenameOf]
  · rw [upload_file_success initDM fsEx now "/tmp/photo.png" (some 42)
      (by decide)]
    simp only [destPath, uniqueFilenameOf]
    rw [if_pos (by decide : (42 : Nat) ≠ 0)]
    decide

/-- Witness for C4's amended claim at a concrete input. -/
theorem uploadFile_correct_witness :
    (pexists fsEx "/tmp/photo.png" = true ∧ (42 : Nat) ≠ 0) ∧
    upload_file initDM fsEx "20240610101112" false "/tmp/photo.png" (some 42) =
      (setFile fsEx
        (initDM.upload_dir ++ "/" ++ ((splitext (basename "/tmp/photo.png")).1 ++
          "_" ++ Nat.repr 42 ++ (splitext (basename "/tmp/photo.png")).2))
        (readFile fsEx "/tmp/photo.png"),
       initDM.upload_dir ++ "/" ++ ((splitext (basename "/tmp/photo.png")).1 ++
          "_" ++ Nat.repr 42 ++ (splitext (basename "/tmp/photo.png")).2)) :=
  ⟨⟨by decide, by decide⟩,
    (uploadFile_correct initDM fsEx "20240610101112" "/tmp/photo.png"
      (some 42)).2.2.1 (by decide) 42 rfl (by decide)⟩

/-- C9: storing an existing source file and then reading the returned
destination path yields content identical to the original, and the
original file is untouched: it still exists at its original path with
its original content (the destination is never the source path; the
timestamp contains no path separator). -/
theorem uploadFile_roundtrip (dm : DataManager) (fs : FS)
    (now source_path : String) (task_id : Option Nat)
    (hex : pexists fs source_path = true)
    (hnow : ('/' : Char) ∉ now.data) :
    readFile (upload_file dm fs now false source_path task_id).1
        (upload_file dm fs now false source_path task_id).2 =
      readFile fs source_path ∧
    (upload_file dm fs now false source_path task_id).2 ≠ source_path ∧
    pexists (upload_file dm fs now false source_path task_id).1 source_path =
      true ∧
    readFile (upload_file dm fs now false source_path task_id).1 source_path =
      readFile fs source_path := by
  rw [upload_file_success dm fs now source_path task_id hex]
  have hne := destPath_ne_source dm now source_path task_id hnow
  refine ⟨?_, hne, ?_, ?_⟩
  · simp [readFile, setFile, lookupFile]
  · have hlk : lookupFile
        ((destPath dm now source_path task_id, readFile fs source_path) ::
          fs.files) source_path = lookupFile fs.files source_path := by
      simp [lookupFile, hne]
    have hgoal : pexists (setFile fs (destPath dm now source_path task_id)
        (readFile fs source_path)) source_path =
        pexists fs source_path := by
      simp only [pexists, setFile, hlk]
    rw [hgoal, hex]
  · simp [readFile, setFile, lookupFile, hne]

/-- Witness for C9 at a concrete input. -/
theorem uploadFile_roundtrip_witness :
    (pexists fsEx "/tmp/photo.png" = true ∧
      ('/' : Char) ∉ ("20240610101112" : String).data) ∧
    readFile
        (upload_file initDM fsEx "20240610101112" false "/tmp/photo.png"
          (some 42)).1
        (upload_file initDM fsEx "20240610101112" false "/tmp/photo.png"
          (some 42)).2 =
      readFile fsEx "/tmp/photo.png" :=
  ⟨⟨by decide, by decide⟩,
    (uploadFile_roundtrip initDM fsEx "20240610101112" "/tmp/photo.png"
      (some 42) (by decide) (by decide)).1⟩

/-- C10: a supplied task id of 0 behaves exactly as if no task id were
supplied — `if task_id:` applies the id-based naming only to a truthy
(non-zero, non-None) id, so the timestamp-based name is used. -/
theorem uploadFile_taskIdZero_timestamp (dm : DataManager) (fs : FS)
    (now : String) (err : Bool) (source_path : String) :
    upload_file dm fs now err source_path (some 0) =
      upload_file dm fs now err source_path none := by
  simp [upload_file]

end WeeklyPlanner
